import Mathlib

/-!
Verification of the core excavation pipeline of the `code-archaeologist`
repository.

The development is a shallow embedding of the TypeScript sources:

* `src/lib/utils.ts` — the Lexical Classifier (`shouldIgnorePath`) and the
  Metric Extractor (`calculateComplexity`, `estimateMaintainability`);
* `src/orchestration/kestra-client.ts` — the `ExcavatorAgent` methods
  `analyzeFile` / `analyzeFiles`, `buildKnowledgeGraph` and
  `generateInsights`.

Strings are modelled as Lean `String`s / `List Char`; JavaScript numbers
appearing here are integers (penalty arithmetic) or rationals (edge
weights, confidence scores), which is exact for every value the code
manipulates.  Effects (file reads, git queries, the Gemini call) are
modelled by passing their results in explicitly; the in-place array sort
performed by `generateInsights` is modelled by explicit state passing.
-/

/-! ### Lexical Classifier (`src/lib/utils.ts`, `shouldIgnorePath`) -/

/-- The fixed deny-list of directory-name fragments from `shouldIgnorePath`
(`src/lib/utils.ts`, lines 69–84), in source order. -/
def ignorePaths : List String :=
  ["node_modules", "vendor", "dist", "build", ".git", "__pycache__",
   ".venv", "venv", ".next", "coverage", ".nyc_output", "target",
   "bin", "obj"]

/-- Substring containment on character lists, the semantics of JavaScript
`String.prototype.includes`. -/
def substrB (needle hay : List Char) : Bool :=
  hay.tails.any (fun t => needle.isPrefixOf t)

/-- `shouldIgnorePath` from `src/lib/utils.ts` lines 68–86:
`ignorePaths.some((p) => filePath.includes(p))`. -/
def shouldIgnorePath (filePath : String) : Bool :=
  ignorePaths.any (fun p => substrB p.data filePath.data)

/-! ### Character classes used by the Metric Extractor regexes

`calculateComplexity` counts matches of the regexes `/\bif\b/g`,
`/\belse\b/g`, `/\bfor\b/g`, `/\bwhile\b/g`, `/\bswitch\b/g`,
`/\bcase\b/g`, `/\bcatch\b/g`, `/\?\s*.*\s*:/g`, `/&&/g`, `/\|\|/g`.
The character classes below are the ECMAScript ones: `\w` (word
characters, giving the `\b` boundaries), `\s` (whitespace, including line
terminators), and the complement of `.` (line terminators). -/

/-- ECMAScript `\w`: `[A-Za-z0-9_]`. -/
def isWordChar (c : Char) : Bool :=
  c.isAlpha || c.isDigit || c == '_'

/-- ECMAScript line terminators, the characters *not* matched by `.`
(without the `s` flag): LF, CR, LS, PS. -/
def isLineTerm (c : Char) : Bool :=
  c == '\n' || c == '\x0d' || c == '\u2028' || c == '\u2029'

/-- ECMAScript `\s`: WhiteSpace ∪ LineTerminator. -/
def isWsJS (c : Char) : Bool :=
  c == ' ' || c == '\t' || c == '\n' || c == '\x0b' || c == '\x0c' ||
  c == '\x0d' || c == '\u00a0' || c == '\u1680' ||
  (decide (0x2000 ≤ c.toNat) && decide (c.toNat ≤ 0x200A)) ||
  c == '\u2028' || c == '\u2029' || c == '\u202f' || c == '\u205f' ||
  c == '\u3000' || c == '\ufeff'

/-! ### Keyword counting (`/\b<kw>\b/g`)

For a keyword `w` consisting of word characters only, two
boundary-delimited occurrences can never overlap (the character before a
later overlapping start would be a letter of `w`, hence a word character,
violating the `\b` boundary).  The number of matches of `/\b<w>\b/g` is
therefore exactly the number of positions at which `w` occurs delimited
by non-word characters (or the ends of the string), which is what
`countWordAux` counts in one left-to-right pass. -/

/-- `\b` holds before the current position: the previous character (if
any) is not a word character. -/
def boundaryB : Option Char → Bool
  | none => true
  | some c => !isWordChar c

/-- `\b` holds after the occurrence: the next character (if any) is not a
word character. -/
def headNonWord : List Char → Bool
  | [] => true
  | c :: _ => !isWordChar c

/-- A delimited occurrence of `w` starts at the head of `s` (with `prev`
the character immediately before `s`, if any). -/
def wordHit (w : List Char) (prev : Option Char) (s : List Char) : Bool :=
  boundaryB prev && w.isPrefixOf s && headNonWord (s.drop w.length)

/-- Count the delimited occurrences of `w` in the remainder `s`, `prev`
being the character just before `s`. -/
def countWordAux (w : List Char) : Option Char → List Char → Nat
  | _, [] => 0
  | prev, c :: rest =>
    (if wordHit w prev (c :: rest) then 1 else 0) + countWordAux w (some c) rest

/-- Number of matches of `/\b<w>\b/g` in `s`. -/
def countWord (w s : String) : Nat :=
  countWordAux w.data none s.data

/-! ### Two-character operator counting (`/&&/g`, `/\|\|/g`)

The global regex scans left to right and matches do not overlap:
`"&&&"` contains one match, `"&&&&"` two.  `countPairAux` performs the
same scan; `pending` records whether the previous character was the
operator character and not already consumed by a match. -/

def countPairAux (c : Char) : Bool → List Char → Nat
  | _, [] => 0
  | pending, a :: rest =>
    if pending && a == c then 1 + countPairAux c false rest
    else countPairAux c (a == c) rest

/-- Number of matches of `/cc/g` in `s` (used with `c = '&'` and
`c = '|'`). -/
def countPair (c : Char) (s : String) : Nat :=
  countPairAux c false s.data

/-! ### Ternary counting (`/\?\s*.*\s*:/g`)

A match attempt at a `'?'` tries, by greedy backtracking priority, the
decompositions `\s*` (longest first), then `.*` (longest first), then
`\s*` (longest first), then the literal `':'`.  Unfolding that search
order for this particular pattern: with `r1` the text after the maximal
`\s*` run following the `'?'`, `x` the maximal `.`-run of `r1` (up to
the first line terminator) and `r3` the text after the maximal `\s*` run
following `x`, the engine first reaches the candidate in which `.*` and
both `\s*` are maximal — it succeeds iff `r3` starts with `':'` —
and otherwise, shortening `.*` step by step, the rightmost `':'` inside
`x` (every other backtracking step re-checks one of these candidates:
a shorter trailing `\s*` ends on a whitespace character, never `':'`,
and shortening the leading `\s*` only re-routes to the same candidates).
The match ends just after the `':'` found; the global scan resumes
there, or one character further if the attempt failed. -/

/-- Remainder of `s` after its last `':'`, if any. -/
def afterLastColon : List Char → Option (List Char)
  | [] => none
  | c :: rest =>
    match afterLastColon rest with
    | some r => some r
    | none => if c = ':' then some rest else none

/-- The backtracking outcome given `x` (the maximal `.`-run after the
leading `\s*` run) and `r2` (the text after `x`): the cross-line
candidate first (the first non-whitespace character after `x` is `':'`),
then the rightmost `':'` inside `x`. -/
def matchTernaryCore (x r2 : List Char) : Option (List Char) :=
  if (r2.dropWhile isWsJS).head? = some ':' then
    some (r2.dropWhile isWsJS).tail
  else
    match afterLastColon x with
    | some a => some (a ++ r2)
    | none => none

/-- Attempt to match `\s*.*\s*:` at the start of `s` (the text after a
`'?'`); returns the remainder of the string after the match. -/
def matchTernary (s : List Char) : Option (List Char) :=
  matchTernaryCore ((s.dropWhile isWsJS).takeWhile (fun c => !isLineTerm c))
    ((s.dropWhile isWsJS).dropWhile (fun c => !isLineTerm c))

theorem afterLastColon_length {s r : List Char} (h : afterLastColon s = some r) :
    r.length < s.length := by
  induction s with
  | nil => simp [afterLastColon] at h
  | cons c rest ih =>
    simp only [afterLastColon] at h
    cases hr : afterLastColon rest with
    | some a =>
      rw [hr] at h
      cases h
      exact Nat.lt_trans (ih hr) (Nat.lt_succ_self _)
    | none =>
      rw [hr] at h
      by_cases hc : c = ':'
      · simp [hc] at h
        cases h
        exact Nat.lt_succ_self _
      · simp [hc] at h

theorem matchTernaryCore_length {x r2 r : List Char}
    (h : matchTernaryCore x r2 = some r) : r.length < x.length + r2.length := by
  unfold matchTernaryCore at h
  have h3 : (r2.dropWhile isWsJS).length ≤ r2.length :=
    (List.dropWhile_sublist isWsJS).length_le
  by_cases hh : (r2.dropWhile isWsJS).head? = some ':'
  · rw [if_pos hh] at h
    cases h
    have hne : r2.dropWhile isWsJS ≠ [] := by
      intro he
      rw [he] at hh
      simp at hh
    have ht : (r2.dropWhile isWsJS).tail.length = (r2.dropWhile isWsJS).length - 1 :=
      List.length_tail _
    have hpos : 0 < (r2.dropWhile isWsJS).length := List.length_pos.mpr hne
    omega
  · rw [if_neg hh] at h
    cases h5 : afterLastColon x with
    | some a =>
      rw [h5] at h
      cases h
      have := afterLastColon_length h5
      rw [List.length_append]
      omega
    | none => rw [h5] at h; cases h

theorem matchTernary_length {s r : List Char} (h : matchTernary s = some r) :
    r.length < s.length := by
  unfold matchTernary at h
  have h1 : (s.dropWhile isWsJS).length ≤ s.length :=
    (List.dropWhile_sublist isWsJS).length_le
  have hx : (s.dropWhile isWsJS).takeWhile (fun c => !isLineTerm c) ++
      (s.dropWhile isWsJS).dropWhile (fun c => !isLineTerm c) = s.dropWhile isWsJS :=
    List.takeWhile_append_dropWhile _ _
  have h2 : ((s.dropWhile isWsJS).takeWhile (fun c => !isLineTerm c)).length +
      ((s.dropWhile isWsJS).dropWhile (fun c => !isLineTerm c)).length =
      (s.dropWhile isWsJS).length := by
    rw [← List.length_append, hx]
  have := matchTernaryCore_length h
  omega

/-- The global scan of `/\?\s*.*\s*:/g`, with explicit fuel (one unit per
character position; each step consumes at least one character). -/
def ternAux : Nat → List Char → Nat
  | 0, _ => 0
  | _ + 1, [] => 0
  | fuel + 1, c :: rest =>
    if c = '?' then
      match matchTernary rest with
      | some r => 1 + ternAux fuel r
      | none => ternAux fuel rest
    else ternAux fuel rest

/-- Number of matches of `/\?\s*.*\s*:/g` in `l`. -/
def ternaryCountL (l : List Char) : Nat := ternAux l.length l

/-- Number of matches of `/\?\s*.*\s*:/g` in `s`. -/
def ternaryCount (s : String) : Nat := ternaryCountL s.data

/-! ### `calculateComplexity` (`src/lib/utils.ts` lines 265–290) -/

/-- `calculateComplexity`: `1` plus the number of matches of each of the
ten patterns, in source order. -/
def calculateComplexity (code : String) : Nat :=
  1 + countWord "if" code + countWord "else" code + countWord "for" code
    + countWord "while" code + countWord "switch" code
    + countWord "case" code + countWord "catch" code
    + ternaryCount code + countPair '&' code + countPair '|' code

/-! ### `estimateMaintainability` (`src/lib/utils.ts` lines 295–324) -/

/-- `code.split("\n")` as character lists. -/
def linesList (code : String) : List (List Char) := code.data.splitOn '\n'

/-- JavaScript `String.prototype.trim` (strips `\s` from both ends). -/
def trimJS (l : List Char) : List Char :=
  ((l.dropWhile isWsJS).reverse.dropWhile isWsJS).reverse

/-- A comment-looking line: after trimming it starts with `//`, `#` or
`*`. -/
def isCommentLine (l : List Char) : Bool :=
  "//".data.isPrefixOf (trimJS l) || "#".data.isPrefixOf (trimJS l) ||
  "*".data.isPrefixOf (trimJS l)

/-- Line-count penalty: `-20`/`-10`/`-5` for `>500`/`>300`/`>100` lines,
only the highest tier crossed (the source `if`/`else if` chain). -/
def linePenalty (lines : Nat) : Int :=
  if lines > 500 then 20 else if lines > 300 then 10
  else if lines > 100 then 5 else 0

/-- Complexity penalty: `-30`/`-20`/`-10` for `>50`/`>30`/`>15`, only the
highest tier crossed. -/
def complexityPenalty (complexity : Nat) : Int :=
  if complexity > 50 then 30 else if complexity > 30 then 20
  else if complexity > 15 then 10 else 0

/-- Long-line penalty: `-10` if more than ten lines exceed 120
characters. -/
def longLinePenalty (longLines : Nat) : Int :=
  if longLines > 10 then 10 else 0

/-- Comment-ratio penalty: `-10` if `commentLines / lines < 0.05`.  The
double-precision comparison agrees with the exact rational test
`20 * commentLines < lines` for every line count a JavaScript string can
have (the two sides of the comparison differ by at least `1/(20·lines)`
whenever they differ as rationals, far above the rounding error). -/
def commentPenalty (commentLines lines : Nat) : Int :=
  if commentLines * 20 < lines then 10 else 0

/-- `estimateMaintainability`: start from 100, subtract the four
penalties, clamp to `[0, 100]` via
`Math.max(0, Math.min(100, score))`. -/
def estimateMaintainability (code : String) : Int :=
  max 0 (min 100
    (100 - linePenalty (linesList code).length
      - complexityPenalty (calculateComplexity code)
      - longLinePenalty ((linesList code).filter (fun l => l.length > 120)).length
      - commentPenalty ((linesList code).filter isCommentLine).length
          (linesList code).length))

theorem ternAux_nil (f : Nat) : ternAux f [] = 0 := by
  cases f <;> rfl

theorem ternAux_congr :
    ∀ (f : Nat) {g : Nat} {s : List Char}, s.length ≤ f → s.length ≤ g →
      ternAux f s = ternAux g s := by
  intro f
  induction f with
  | zero =>
    intro g s hf _
    have : s = [] := List.length_eq_zero.mp (Nat.le_zero.mp hf)
    subst this
    rw [ternAux_nil, ternAux_nil]
  | succ f ih =>
    intro g s hf hg
    cases s with
    | nil => rw [ternAux_nil, ternAux_nil]
    | cons c rest =>
      cases g with
      | zero => simp at hg
      | succ g =>
        simp only [List.length_cons, Nat.succ_le_succ_iff] at hf hg
        show (if c = '?' then
            match matchTernary rest with
            | some r => 1 + ternAux f r
            | none => ternAux f rest
          else ternAux f rest) =
          (if c = '?' then
            match matchTernary rest with
            | some r => 1 + ternAux g r
            | none => ternAux g rest
          else ternAux g rest)
        by_cases hc : c = '?'
        · simp only [if_pos hc]
          cases hm : matchTernary rest with
          | some r =>
            have hr := matchTernary_length hm
            show 1 + ternAux f r = 1 + ternAux g r
            rw [ih (Nat.le_of_lt (Nat.lt_of_lt_of_le hr hf))
              (Nat.le_of_lt (Nat.lt_of_lt_of_le hr hg))]
          | none =>
            show ternAux f rest = ternAux g rest
            exact ih hf hg
        · simp only [if_neg hc]
          rw [ih hf hg]

theorem ternaryCountL_nil : ternaryCountL [] = 0 := rfl

theorem ternaryCountL_cons (c : Char) (rest : List Char) :
    ternaryCountL (c :: rest) =
      if c = '?' then
        match matchTernary rest with
        | some r => 1 + ternaryCountL r
        | none => ternaryCountL rest
      else ternaryCountL rest := by
  show (if c = '?' then
      match matchTernary rest with
      | some r => 1 + ternAux rest.length r
      | none => ternAux rest.length rest
    else ternAux rest.length rest) = _
  by_cases hc : c = '?'
  · simp only [if_pos hc]
    cases hm : matchTernary rest with
    | some r =>
      have hr := matchTernary_length hm
      show 1 + ternAux rest.length r = 1 + ternaryCountL r
      rw [ternAux_congr rest.length (Nat.le_of_lt hr) (Nat.le_refl _)]
      rfl
    | none => rfl
  · simp only [if_neg hc]
    rfl

/-! ### Claims C1, C2, C3 -/

/-- C1 (counterexample): the path `mybin/x.ts` *is* classified as ignored,
contrary to the claim that it is not excluded: the deny-list entry `bin`
occurs as a substring of `mybin/x.ts`. -/
theorem C1_counterexample : shouldIgnorePath "mybin/x.ts" = true := by decide

/-- C1 (amended): `shouldIgnorePath` is substring containment of the fixed
deny-list against the whole path string; every path containing
`node_modules` anywhere is ignored, and both `src/bin/x.ts` *and*
`mybin/x.ts` are excluded (each contains the deny-list entry `bin` as a
substring). -/
theorem C1_substring_ignore :
    (∀ p : String, substrB "node_modules".data p.data = true →
      shouldIgnorePath p = true) ∧
    shouldIgnorePath "mybin/x.ts" = true ∧
    shouldIgnorePath "src/bin/x.ts" = true := by
  refine ⟨?_, by decide, by decide⟩
  intro p h
  apply List.any_eq_true.mpr
  exact ⟨"node_modules", by decide, h⟩

/-- C1 (witness): the general `node_modules` clause applied at a concrete
path. -/
theorem C1_witness : shouldIgnorePath "lib/node_modules/a.js" = true :=
  C1_substring_ignore.1 "lib/node_modules/a.js" (by decide)

/-- C2: any source text with more than 500 newline-split segments and no
comment-looking line scores at most 70: the `-20` line tier and the
`-10` comment-ratio penalty both apply, and the remaining penalties only
lower the score further (each tier chain contributes one value). -/
theorem C2_long_uncommented_le_70 (code : String)
    (hl : 500 < (linesList code).length)
    (hc : ((linesList code).filter isCommentLine).length = 0) :
    estimateMaintainability code ≤ 70 := by
  unfold estimateMaintainability
  have h1 : linePenalty (linesList code).length = 20 := by
    unfold linePenalty
    rw [if_pos hl]
  have h2 : commentPenalty ((linesList code).filter isCommentLine).length
      (linesList code).length = 10 := by
    unfold commentPenalty
    rw [hc, if_pos (by omega)]
  have h3 : 0 ≤ complexityPenalty (calculateComplexity code) := by
    unfold complexityPenalty
    split_ifs <;> norm_num
  have h4 : 0 ≤ longLinePenalty
      ((linesList code).filter (fun l => l.length > 120)).length := by
    unfold longLinePenalty
    split_ifs <;> norm_num
  rw [h1, h2]
  exact max_le (by norm_num) (le_trans (min_le_right _ _) (by omega))

set_option maxRecDepth 100000 in
/-- C2 (witness): a concrete 501-line, comment-free text (500 newline
characters) scores at most 70. -/
theorem C2_witness :
    (500 < (linesList (String.mk (List.replicate 500 '\n'))).length ∧
      ((linesList (String.mk (List.replicate 500 '\n'))).filter
        isCommentLine).length = 0) ∧
    estimateMaintainability (String.mk (List.replicate 500 '\n')) ≤ 70 :=
  ⟨⟨by decide, by decide⟩,
    C2_long_uncommented_le_70 _ (by decide) (by decide)⟩

/-- C3: `estimateMaintainability` always returns a value in `[0, 100]`,
for every input string, by the final `Math.max(0, Math.min(100, ·))`
clamp. -/
theorem C3_maintainability_in_range (code : String) :
    0 ≤ estimateMaintainability code ∧ estimateMaintainability code ≤ 100 := by
  unfold estimateMaintainability
  exact ⟨le_max_left _ _, max_le (by norm_num) (min_le_left _ _)⟩

/-! ### Appending a token on a fresh line never loses keyword matches

The lemmas below analyse each counter on `xs ++ j :: ys` where the
junction character `j` is a newline: a keyword made of word characters
cannot straddle a non-word junction, a two-character operator cannot
straddle a junction that differs from its character, and the two parts
are therefore counted independently. -/

theorem isPrefixOf_append_junction {w : List Char} {j : Char} (ys : List Char)
    (hw : ∀ a ∈ w, isWordChar a = true) (hj : isWordChar j = false) :
    ∀ t : List Char, w.isPrefixOf (t ++ j :: ys) = w.isPrefixOf t := by
  induction w with
  | nil => intro t; cases t <;> rfl
  | cons a w' ih =>
    intro t
    have haj : (a == j) = false := by
      cases habe : a == j
      · rfl
      · have ha := hw a (List.mem_cons_self a w')
        rw [eq_of_beq habe] at ha
        rw [ha] at hj
        cases hj
    cases t with
    | nil =>
      show (a == j && w'.isPrefixOf ys) = (a :: w').isPrefixOf []
      rw [haj]
      rfl
    | cons b t' =>
      show (a == b && w'.isPrefixOf (t' ++ j :: ys)) = (a == b && w'.isPrefixOf t')
      rw [ih (fun x hx => hw x (List.mem_cons_of_mem _ hx)) t']

theorem headNonWord_append_junction {t : List Char} (ys : List Char) {j : Char} {n : Nat}
    (hn : n ≤ t.length) (hj : isWordChar j = false) :
    headNonWord ((t ++ j :: ys).drop n) = headNonWord (t.drop n) := by
  rcases Nat.lt_or_ge n t.length with h | h
  · rw [List.drop_append_of_le_length (Nat.le_of_lt h)]
    have hne : t.drop n ≠ [] := by
      intro he
      have hlen := List.length_drop n t
      rw [he] at hlen
      simp at hlen
      omega
    cases hd : t.drop n with
    | nil => exact absurd hd hne
    | cons c l => rfl
  · have hn' : n = t.length := Nat.le_antisymm hn h
    subst hn'
    rw [List.drop_append_of_le_length (Nat.le_refl _), List.drop_length]
    show headNonWord (j :: ys) = headNonWord []
    show (!isWordChar j) = true
    rw [hj]
    rfl

theorem countWordAux_append_junction {w ys : List Char} {j : Char}
    (hw : ∀ a ∈ w, isWordChar a = true) (hne : w ≠ []) (hj : isWordChar j = false) :
    ∀ (xs : List Char) (prev : Option Char),
      countWordAux w prev (xs ++ j :: ys) =
        countWordAux w prev xs + countWordAux w (some j) ys := by
  intro xs
  induction xs with
  | nil =>
    intro prev
    show (if wordHit w prev (j :: ys) then 1 else 0) + countWordAux w (some j) ys
      = 0 + countWordAux w (some j) ys
    have hhit : wordHit w prev (j :: ys) = false := by
      unfold wordHit
      cases w with
      | nil => exact absurd rfl hne
      | cons a w' =>
        have haj : (a == j) = false := by
          cases habe : a == j
          · rfl
          · have ha := hw a (List.mem_cons_self a w')
            rw [eq_of_beq habe] at ha
            rw [ha] at hj
            cases hj
        have hpf : (a :: w').isPrefixOf (j :: ys) = false := by
          show (a == j && w'.isPrefixOf ys) = false
          rw [haj]
          rfl
        rw [hpf]
        simp
    rw [hhit]
    simp
  | cons c xs' ih =>
    intro prev
    show (if wordHit w prev (c :: (xs' ++ j :: ys)) then 1 else 0)
        + countWordAux w (some c) (xs' ++ j :: ys)
      = ((if wordHit w prev (c :: xs') then 1 else 0) + countWordAux w (some c) xs')
        + countWordAux w (some j) ys
    rw [ih (some c)]
    have hhit : wordHit w prev (c :: (xs' ++ j :: ys)) = wordHit w prev (c :: xs') := by
      unfold wordHit
      have hpf : w.isPrefixOf (c :: (xs' ++ j :: ys)) = w.isPrefixOf (c :: xs') := by
        have := isPrefixOf_append_junction ys hw hj (c :: xs')
        rw [List.cons_append] at this
        exact this
      rw [hpf]
      cases hb : w.isPrefixOf (c :: xs') with
      | false => simp
      | true =>
        have hlen : w.length ≤ (c :: xs').length :=
          (List.isPrefixOf_iff_prefix.mp hb).length_le
        have hdr := headNonWord_append_junction ys hlen hj
        rw [List.cons_append] at hdr
        rw [hdr]
    rw [hhit]
    omega

theorem countPairAux_append_junction {c j : Char} {ys : List Char}
    (hj : (j == c) = false) :
    ∀ (xs : List Char) (p : Bool),
      countPairAux c p (xs ++ j :: ys) =
        countPairAux c p xs + countPairAux c false ys := by
  intro xs
  induction xs with
  | nil =>
    intro p
    show (if p && j == c then 1 + countPairAux c false ys
        else countPairAux c (j == c) ys)
      = 0 + countPairAux c false ys
    rw [hj]
    simp
  | cons a xs' ih =>
    intro p
    show (if p && a == c then 1 + countPairAux c false (xs' ++ j :: ys)
        else countPairAux c (a == c) (xs' ++ j :: ys))
      = (if p && a == c then 1 + countPairAux c false xs'
          else countPairAux c (a == c) xs') + countPairAux c false ys
    cases hpa : p && (a == c) with
    | true =>
      rw [if_pos rfl, if_pos rfl, ih false]
      omega
    | false =>
      rw [if_neg Bool.false_ne_true, if_neg Bool.false_ne_true]
      exact ih (a == c)

/-! ### Appending a token on a fresh line never loses ternary matches

Appending `'\n' :: d` (a newline followed by a token `d` that starts
with a non-whitespace character other than `':'`) to the text after a
`'?'` preserves a successful match (the remainder is just extended) and
can turn a failed attempt into a success only when the whole old text
was whitespace (the leading `\s*` run is then the only span that reaches
the appended token). -/

theorem dropWhile_append_of_ne_nil {p : Char → Bool} {xs : List Char} (ys : List Char)
    (h : xs.dropWhile p ≠ []) :
    (xs ++ ys).dropWhile p = xs.dropWhile p ++ ys := by
  rw [List.dropWhile_append, if_neg]
  simp only [List.isEmpty_iff]
  exact h

theorem dropWhile_append_of_nil {p : Char → Bool} {xs : List Char} (ys : List Char)
    (h : xs.dropWhile p = []) :
    (xs ++ ys).dropWhile p = ys.dropWhile p := by
  rw [List.dropWhile_append, if_pos]
  simp only [List.isEmpty_iff]
  exact h

theorem takeWhile_append_of_ne_nil {p : Char → Bool} {xs : List Char} (ys : List Char)
    (h : xs.dropWhile p ≠ []) :
    (xs ++ ys).takeWhile p = xs.takeWhile p := by
  rw [List.takeWhile_append, if_neg]
  intro hlen
  have heq : xs.takeWhile p = xs :=
    (List.takeWhile_sublist p).eq_of_length hlen
  exact h (List.dropWhile_eq_nil_iff.mpr (List.takeWhile_eq_self_iff.mp heq))

theorem takeWhile_append_of_nil {p : Char → Bool} {xs : List Char} (ys : List Char)
    (h : xs.dropWhile p = []) :
    (xs ++ ys).takeWhile p = xs ++ ys.takeWhile p := by
  rw [List.takeWhile_append, if_pos]
  rw [List.takeWhile_eq_self_iff.mpr (List.dropWhile_eq_nil_iff.mp h)]

theorem head?_append_of_ne_nil {xs : List Char} (ys : List Char) (h : xs ≠ []) :
    (xs ++ ys).head? = xs.head? := by
  cases xs with
  | nil => exact absurd rfl h
  | cons a l => rfl

/-- The maximal whitespace-skip of `r2 ++ '\n' :: d` when `r2` is all
whitespace: it lands exactly on `d` (whose head is not whitespace). -/
theorem dropWhile_ws_append_tok_of_nil {r2 d : List Char}
    (hd : ∀ c, d.head? = some c → isWsJS c = false ∧ c ≠ ':')
    (hemp : r2.dropWhile isWsJS = []) :
    (r2 ++ '\n' :: d).dropWhile isWsJS = d := by
  rw [dropWhile_append_of_nil _ hemp]
  rw [List.dropWhile_cons, if_pos (by decide)]
  cases hdd : d with
  | nil => rfl
  | cons c d' =>
    rw [List.dropWhile_cons, if_neg]
    have := hd c (by rw [hdd]; rfl)
    simp [this.1]

theorem matchTernaryCore_append_some {x r2 d r : List Char}
    (hd : ∀ c, d.head? = some c → isWsJS c = false ∧ c ≠ ':')
    (h : matchTernaryCore x r2 = some r) :
    matchTernaryCore x (r2 ++ '\n' :: d) = some (r ++ '\n' :: d) := by
  unfold matchTernaryCore at h ⊢
  by_cases hh : (r2.dropWhile isWsJS).head? = some ':'
  · rw [if_pos hh] at h
    cases h
    have hne : r2.dropWhile isWsJS ≠ [] := by
      intro he
      rw [he] at hh
      simp at hh
    rw [dropWhile_append_of_ne_nil ('\n' :: d) hne]
    rw [if_pos (by rw [head?_append_of_ne_nil _ hne]; exact hh)]
    cases hl : r2.dropWhile isWsJS with
    | nil => exact absurd hl hne
    | cons a l => rfl
  · rw [if_neg hh] at h
    cases h5 : afterLastColon x with
    | some a =>
      rw [h5] at h
      cases h
      by_cases hemp : r2.dropWhile isWsJS = []
      · rw [dropWhile_ws_append_tok_of_nil hd hemp]
        have hhd : ¬(d.head? = some ':') := by
          intro hcon
          exact (hd ':' hcon).2 rfl
        rw [if_neg hhd]
        show some (a ++ (r2 ++ '\n' :: d)) = some (a ++ r2 ++ '\n' :: d)
        rw [List.append_assoc]
      · rw [dropWhile_append_of_ne_nil ('\n' :: d) hemp]
        rw [if_neg (by rw [head?_append_of_ne_nil _ hemp]; exact hh)]
        show some (a ++ (r2 ++ '\n' :: d)) = some (a ++ r2 ++ '\n' :: d)
        rw [List.append_assoc]
    | none =>
      rw [h5] at h
      cases h

theorem matchTernaryCore_append_none {x r2 d : List Char}
    (hd : ∀ c, d.head? = some c → isWsJS c = false ∧ c ≠ ':')
    (h : matchTernaryCore x r2 = none) :
    matchTernaryCore x (r2 ++ '\n' :: d) = none := by
  unfold matchTernaryCore at h ⊢
  by_cases hh : (r2.dropWhile isWsJS).head? = some ':'
  · rw [if_pos hh] at h
    cases h
  · rw [if_neg hh] at h
    cases h5 : afterLastColon x with
    | some a =>
      rw [h5] at h
      cases h
    | none =>
      by_cases hemp : r2.dropWhile isWsJS = []
      · rw [dropWhile_ws_append_tok_of_nil hd hemp]
        have hhd : ¬(d.head? = some ':') := by
          intro hcon
          exact (hd ':' hcon).2 rfl
        rw [if_neg hhd]
      · rw [dropWhile_append_of_ne_nil ('\n' :: d) hemp]
        rw [if_neg (by rw [head?_append_of_ne_nil _ hemp]; exact hh)]

theorem matchTernary_append_some {s d r : List Char}
    (hd : ∀ c, d.head? = some c → isWsJS c = false ∧ c ≠ ':')
    (h : matchTernary s = some r) :
    matchTernary (s ++ '\n' :: d) = some (r ++ '\n' :: d) := by
  unfold matchTernary at h ⊢
  by_cases hr1 : s.dropWhile isWsJS = []
  · rw [hr1] at h
    simp only [List.takeWhile_nil, List.dropWhile_nil] at h
    rw [show matchTernaryCore [] [] = none from rfl] at h
    cases h
  · rw [dropWhile_append_of_ne_nil ('\n' :: d) hr1]
    by_cases h2 : (s.dropWhile isWsJS).dropWhile (fun c => !isLineTerm c) = []
    · have hx1 : (s.dropWhile isWsJS).takeWhile (fun c => !isLineTerm c) =
          s.dropWhile isWsJS :=
        List.takeWhile_eq_self_iff.mpr (List.dropWhile_eq_nil_iff.mp h2)
      rw [takeWhile_append_of_nil _ h2, dropWhile_append_of_nil _ h2]
      rw [show ('\n' :: d).takeWhile (fun c => !isLineTerm c) = [] from by
        rw [List.takeWhile_cons, if_neg (by decide)]]
      rw [show ('\n' :: d).dropWhile (fun c => !isLineTerm c) = '\n' :: d from by
        rw [List.dropWhile_cons, if_neg (by decide)]]
      rw [List.append_nil]
      rw [hx1, h2] at h
      have := matchTernaryCore_append_some hd h
      rw [List.nil_append] at this
      exact this
    · rw [takeWhile_append_of_ne_nil _ h2, dropWhile_append_of_ne_nil _ h2]
      exact matchTernaryCore_append_some hd h

theorem matchTernary_append_none {s d : List Char}
    (hd : ∀ c, d.head? = some c → isWsJS c = false ∧ c ≠ ':')
    (h : matchTernary s = none) :
    matchTernary (s ++ '\n' :: d) = none ∨ ∀ c ∈ s, isWsJS c = true := by
  by_cases hr1 : s.dropWhile isWsJS = []
  · exact Or.inr (List.dropWhile_eq_nil_iff.mp hr1)
  · left
    unfold matchTernary at h ⊢
    rw [dropWhile_append_of_ne_nil ('\n' :: d) hr1]
    by_cases h2 : (s.dropWhile isWsJS).dropWhile (fun c => !isLineTerm c) = []
    · have hx1 : (s.dropWhile isWsJS).takeWhile (fun c => !isLineTerm c) =
          s.dropWhile isWsJS :=
        List.takeWhile_eq_self_iff.mpr (List.dropWhile_eq_nil_iff.mp h2)
      rw [takeWhile_append_of_nil _ h2, dropWhile_append_of_nil _ h2]
      rw [show ('\n' :: d).takeWhile (fun c => !isLineTerm c) = [] from by
        rw [List.takeWhile_cons, if_neg (by decide)]]
      rw [show ('\n' :: d).dropWhile (fun c => !isLineTerm c) = '\n' :: d from by
        rw [List.dropWhile_cons, if_neg (by decide)]]
      rw [List.append_nil]
      rw [hx1, h2] at h
      have := matchTernaryCore_append_none hd h
      rw [List.nil_append] at this
      exact this
    · rw [takeWhile_append_of_ne_nil _ h2, dropWhile_append_of_ne_nil _ h2]
      exact matchTernaryCore_append_none hd h

theorem ternaryCountL_allWs {s : List Char} (h : ∀ c ∈ s, isWsJS c = true) :
    ternaryCountL s = 0 := by
  induction s with
  | nil => rfl
  | cons c rest ih =>
    rw [ternaryCountL_cons]
    have hc : c ≠ '?' := by
      intro he
      subst he
      exact absurd (h '?' (List.mem_cons_self _ _)) (by decide)
    rw [if_neg hc]
    exact ih (fun a ha => h a (List.mem_cons_of_mem _ ha))

theorem ternaryCountL_append_le (d : List Char)
    (hd : ∀ c, d.head? = some c → isWsJS c = false ∧ c ≠ ':') :
    ∀ s : List Char, ternaryCountL s ≤ ternaryCountL (s ++ '\n' :: d) := by
  have main : ∀ n s, s.length ≤ n →
      ternaryCountL s ≤ ternaryCountL (s ++ '\n' :: d) := by
    intro n
    induction n with
    | zero =>
      intro s hs
      have : s = [] := List.length_eq_zero.mp (Nat.le_zero.mp hs)
      subst this
      rw [ternaryCountL_nil]
      exact Nat.zero_le _
    | succ n ih =>
      intro s hs
      cases s with
      | nil =>
        rw [ternaryCountL_nil]
        exact Nat.zero_le _
      | cons c rest =>
        rw [List.cons_append, ternaryCountL_cons, ternaryCountL_cons]
        simp only [List.length_cons, Nat.succ_le_succ_iff] at hs
        by_cases hc : c = '?'
        · rw [if_pos hc, if_pos hc]
          cases hm : matchTernary rest with
          | some r =>
            rw [matchTernary_append_some hd hm]
            show 1 + ternaryCountL r ≤ 1 + ternaryCountL (r ++ '\n' :: d)
            have hr := matchTernary_length hm
            exact Nat.add_le_add_left (ih r (by omega)) 1
          | none =>
            rcases matchTernary_append_none hd hm with hnew | hall
            · rw [hnew]
              show ternaryCountL rest ≤ ternaryCountL (rest ++ '\n' :: d)
              exact ih rest hs
            · show ternaryCountL rest ≤ _
              rw [ternaryCountL_allWs hall]
              exact Nat.zero_le _
        · rw [if_neg hc, if_neg hc]
          exact ih rest hs
  intro s
  exact main s.length s (Nat.le_refl _)

/-! ### Claim C7: complexity monotonicity -/

theorem data_append_newline_tok (s tok : String) :
    (s ++ "\n" ++ tok).data = s.data ++ '\n' :: tok.data := by
  rw [String.data_append, String.data_append]
  rw [show ("\n" : String).data = ['\n'] from rfl]
  rw [List.append_assoc]
  rfl

theorem countWord_append_tok (w s tok : String)
    (hw : ∀ a ∈ w.data, isWordChar a = true) (hne : w.data ≠ []) :
    countWord w s ≤ countWord w (s ++ "\n" ++ tok) := by
  unfold countWord
  rw [data_append_newline_tok]
  rw [countWordAux_append_junction hw hne (by decide) s.data none]
  exact Nat.le_add_right _ _

theorem countPair_append_tok (c : Char) (s tok : String)
    (hc : (('\n' : Char) == c) = false) :
    countPair c s ≤ countPair c (s ++ "\n" ++ tok) := by
  unfold countPair
  rw [data_append_newline_tok]
  rw [countPairAux_append_junction hc s.data false]
  exact Nat.le_add_right _ _

theorem ternaryCount_append_tok (s tok : String)
    (hd : ∀ c, tok.data.head? = some c → isWsJS c = false ∧ c ≠ ':') :
    ternaryCount s ≤ ternaryCount (s ++ "\n" ++ tok) := by
  unfold ternaryCount
  rw [data_append_newline_tok]
  exact ternaryCountL_append_le tok.data hd s.data

/-- The counted keywords and operators of `calculateComplexity`, each as
the text inserted for one additional occurrence (`?0:` is a minimal
occurrence of the ternary pattern `\?\s*.*\s*:`). -/
def complexityTokens : List String :=
  ["if", "else", "for", "while", "switch", "case", "catch", "?0:", "&&", "||"]

/-- C7 (counterexample): inserting the keyword `if` into the snippet
`if` at position 1 yields `iiff`, whose complexity is *smaller* (the
original delimited occurrence of `if` is destroyed and the inserted one
is not delimited), so complexity is not monotone under insertion of a
counted keyword at an arbitrary position. -/
theorem C7_counterexample :
    ("iiff" : String) = "i" ++ "if" ++ "f" ∧
    calculateComplexity "iiff" < calculateComplexity "if" := by
  constructor
  · rfl
  · decide

/-- C7 (amended): `calculateComplexity` is monotone when the additional
occurrence of a counted keyword or operator is appended on a fresh line
(each keyword then forms a new delimited match and no existing match of
any of the ten patterns is destroyed); insertion at an arbitrary
position can instead merge the inserted text with adjacent word
characters and lower the count. -/
theorem C7_append_monotone (s tok : String) (h : tok ∈ complexityTokens) :
    calculateComplexity s ≤ calculateComplexity (s ++ "\n" ++ tok) := by
  have hd : ∀ c, tok.data.head? = some c → isWsJS c = false ∧ c ≠ ':' := by
    fin_cases h <;>
      (intro c hc
       obtain rfl : c = _ := (Option.some.inj hc).symm
       exact ⟨by decide, by decide⟩)
  have h1 := countWord_append_tok "if" s tok (by decide) (by decide)
  have h2 := countWord_append_tok "else" s tok (by decide) (by decide)
  have h3 := countWord_append_tok "for" s tok (by decide) (by decide)
  have h4 := countWord_append_tok "while" s tok (by decide) (by decide)
  have h5 := countWord_append_tok "switch" s tok (by decide) (by decide)
  have h6 := countWord_append_tok "case" s tok (by decide) (by decide)
  have h7 := countWord_append_tok "catch" s tok (by decide) (by decide)
  have h8 := ternaryCount_append_tok s tok hd
  have h9 := countPair_append_tok '&' s tok (by decide)
  have h10 := countPair_append_tok '|' s tok (by decide)
  unfold calculateComplexity
  omega

/-- C7 (witness): appending `if` on a fresh line to a concrete snippet
does not decrease its complexity. -/
theorem C7_witness :
    ("if" : String) ∈ complexityTokens ∧
    calculateComplexity "x = 1; a ? b : c" ≤
      calculateComplexity ("x = 1; a ? b : c" ++ "\n" ++ "if") :=
  ⟨by decide, C7_append_monotone "x = 1; a ? b : c" "if" (by decide)⟩

/-! ### Data model of the `ExcavatorAgent`
(`src/orchestration/kestra-client.ts`, type definitions and
`src/lib/gemini-client.ts` for `CommitInfo`/`ArchaeologicalAnalysis`).

JavaScript numbers are modelled as `Nat`/`Int` where the code only ever
stores integers, and as `ℚ` for the edge weights and the confidence
score. -/

structure CommitInfo where
  hash : String
  message : String
  author : String
  date : String
  diff : Option String
deriving DecidableEq

structure ArchaeologicalAnalysis where
  summary : String
  businessContext : String
  technicalRationale : String
  dependencies : List String
  risks : List String
  recommendations : List String
  confidenceScore : ℚ
deriving DecidableEq

structure FileMetrics where
  lines : Nat
  complexity : Nat
  maintainability : Int
  definitions : List String
  imports : List String
deriving DecidableEq

structure FileAnalysis where
  path : String
  language : String
  metrics : FileMetrics
  commits : List CommitInfo
  authors : List String
  analysis : Option ArchaeologicalAnalysis
  lastModified : String
  createdAt : String
deriving DecidableEq

structure AuthorStats where
  name : String
  email : Option String
  commits : Nat
  filesChanged : Nat
  additions : Nat
  deletions : Nat
  firstCommit : String
  lastCommit : String
deriving DecidableEq

structure RepositoryStats where
  totalFiles : Nat
  analyzedFiles : Nat
  totalCommits : Nat
  totalAuthors : Nat
  languages : List (String × Nat)
  topAuthors : List AuthorStats
  dateRangeFirst : String
  dateRangeLast : String
deriving DecidableEq

/-- A metadata value of a graph node (the source stores strings and
numbers in the per-node metadata object). -/
inductive MetaVal
  | str (v : String)
  | num (v : Int)
deriving DecidableEq

/-- A knowledge-graph node, the shape constructed by
`buildKnowledgeGraph` (`id`, `type`, `label`, `metadata`). -/
structure GraphNode where
  id : String
  type : String
  label : String
  metadata : List (String × MetaVal)
deriving DecidableEq

structure GraphEdge where
  source : String
  target : String
  relationship : String
  weight : ℚ
deriving DecidableEq

structure Cluster where
  name : String
  nodeIds : List String
deriving DecidableEq

structure KnowledgeGraph where
  nodes : List GraphNode
  edges : List GraphEdge
  clusters : List Cluster
deriving DecidableEq

/-! ### Node `path` helpers

`buildKnowledgeGraph` runs `path.basename` (node labels) and
`path.dirname` (clusters) on git-tracked POSIX-style paths; both are
modelled after the Node.js POSIX implementations. -/

/-- Node.js `path.posix.basename` (no extension argument): drop trailing
slashes, then take the final slash-free segment; an all-slash or empty
path yields the empty string. -/
def basename (p : String) : String :=
  String.mk (((p.data.reverse).dropWhile (fun c => c = '/')).takeWhile
    (fun c => c ≠ '/')).reverse

/-- Node.js `path.posix.dirname`: scanning from the end (excluding index
0), skip trailing slashes, skip the final segment, and cut at the slash
found there; with no such slash the result is `/` for rooted paths and
`.` otherwise.  In particular `dirname "x.ts" = "."` — never the empty
string. -/
def dirname (p : String) : String :=
  if p.data = [] then "."
  else
    let hasRoot := p.data.head? = some '/'
    let r1 := (p.data.drop 1).reverse
    let r2 := r1.dropWhile (fun c => c = '/')
    let r3 := r2.dropWhile (fun c => c ≠ '/')
    if r3 = [] then (if hasRoot then "/" else ".")
    else if hasRoot ∧ r3.length = 1 then "//"
    else String.mk (p.data.take r3.length)

/-! ### `buildKnowledgeGraph`
(`src/orchestration/kestra-client.ts`, lines 844–953), decomposed in
source push-order: per-file nodes (file node, then up to five definition
nodes each with a `defines` edge), author nodes with `authored` edges,
`imports` edges, directory clusters. -/

/-- Models `const [type, name] = def.split(":")` followed by the
template `${type}:${file.path}:${name}`: `type` is the text before the
first colon, `name` the text between the first and second colon, or the
string `"undefined"` when the definition contains no colon (JavaScript
destructuring of a too-short array). -/
def defParts (d : String) : String × String :=
  let ty := String.mk (d.data.takeWhile (fun c => c ≠ ':'))
  match d.data.dropWhile (fun c => c ≠ ':') with
  | [] => (ty, "undefined")
  | _ :: tail => (ty, String.mk (tail.takeWhile (fun c => c ≠ ':')))

def defNodeId (path d : String) : String :=
  (defParts d).1 ++ ":" ++ path ++ ":" ++ (defParts d).2

def fileNode (f : FileAnalysis) : GraphNode :=
  { id := "file:" ++ f.path
    type := "file"
    label := basename f.path
    metadata := [("path", .str f.path), ("language", .str f.language),
      ("lines", .num f.metrics.lines), ("complexity", .num f.metrics.complexity),
      ("maintainability", .num f.metrics.maintainability)] }

def defNode (f : FileAnalysis) (d : String) : GraphNode :=
  { id := defNodeId f.path d
    type := (defParts d).1
    label := (defParts d).2
    metadata := [("file", .str f.path)] }

def defEdge (f : FileAnalysis) (d : String) : GraphEdge :=
  { source := "file:" ++ f.path
    target := defNodeId f.path d
    relationship := "defines"
    weight := 1 }

def authorNode (a : AuthorStats) : GraphNode :=
  { id := "author:" ++ a.name
    type := "author"
    label := a.name
    metadata := [("commits", .num a.commits), ("firstCommit", .str a.firstCommit),
      ("lastCommit", .str a.lastCommit)] }

/-- The `authored` edges of one author: one edge per analyzed file whose
author set contains the author, weighted by the number of commits by
that author inside that file's commit slice. -/
def authorEdges (files : List FileAnalysis) (a : AuthorStats) : List GraphEdge :=
  (files.filter (fun f => f.authors.contains a.name)).map (fun f =>
    { source := "author:" ++ a.name
      target := "file:" ++ f.path
      relationship := "authored"
      weight := ((f.commits.filter (fun c => c.author == a.name)).length : ℚ) })

/-- `imp.replace(/^\.\//, "")`: strip one leading `./`. -/
def stripDotSlash (imp : String) : String :=
  if "./".data.isPrefixOf imp.data then String.mk (imp.data.drop 2) else imp

/-- `imp.replace(/^\.\.\//, "")`: strip one leading `../`. -/
def stripDotDotSlash (imp : String) : String :=
  if "../".data.isPrefixOf imp.data then String.mk (imp.data.drop 3) else imp

/-- `files.find(...)`: the first analyzed file whose path contains
the import specifier stripped of a leading `./` or `../`. -/
def importMatch (files : List FileAnalysis) (imp : String) : Option FileAnalysis :=
  files.find? (fun g =>
    substrB (stripDotSlash imp).data g.path.data ||
    substrB (stripDotDotSlash imp).data g.path.data)

def importEdges (files : List FileAnalysis) (f : FileAnalysis) : List GraphEdge :=
  f.metrics.imports.filterMap (fun imp =>
    (importMatch files imp).map (fun g =>
      { source := "file:" ++ f.path
        target := "file:" ++ g.path
        relationship := "imports"
        weight := (0.8 : ℚ) }))

/-- One step of the `directoryMap` construction: JavaScript `Map`
preserves insertion order, and `get(dir)!.push(...)` appends to the
bucket of an existing key. -/
def dirInsert (m : List (String × List String)) (k v : String) :
    List (String × List String) :=
  if m.any (fun q => q.1 == k) then
    m.map (fun q => if q.1 == k then (q.1, q.2 ++ [v]) else q)
  else m ++ [(k, [v])]

def directoryMap (files : List FileAnalysis) : List (String × List String) :=
  files.foldl (fun m f => dirInsert m (dirname f.path) ("file:" ++ f.path)) []

/-- The emitted clusters: one per directory bucket with more than one
file, named `dir || "root"` (the `"root"` fallback fires only on the
empty string, which `dirname` never returns). -/
def clustersOf (files : List FileAnalysis) : List Cluster :=
  (directoryMap files).filterMap (fun q =>
    if q.2.length > 1 then
      some { name := if q.1 = "" then "root" else q.1, nodeIds := q.2 }
    else none)

/-- The nodes pushed while processing one file: the file node, then up
to five definition nodes. -/
def nodesOfFile (f : FileAnalysis) : List GraphNode :=
  fileNode f :: (f.metrics.definitions.take 5).map (defNode f)

def buildKnowledgeGraph (files : List FileAnalysis) (stats : RepositoryStats) :
    KnowledgeGraph :=
  { nodes := files.flatMap nodesOfFile ++ (stats.topAuthors.take 5).map authorNode
    edges := files.flatMap (fun f => (f.metrics.definitions.take 5).map (defEdge f))
      ++ (stats.topAuthors.take 5).flatMap (authorEdges files)
      ++ files.flatMap (importEdges files)
    clusters := clustersOf files }

/-! ### Node-id parsing lemmas

Every id built by `buildKnowledgeGraph` has the shape
`kind ++ ":" ++ rest` with a colon-free kind (`file`, `author`, or a
definition kind), so the text before the first colon — and, for
definition ids, the colon-free name after the last colon — determines
the id's components. -/

theorem append_colon_inj {k1 k2 r1 r2 : List Char}
    (h1 : ∀ c ∈ k1, c ≠ ':') (h2 : ∀ c ∈ k2, c ≠ ':')
    (he : k1 ++ ':' :: r1 = k2 ++ ':' :: r2) : k1 = k2 ∧ r1 = r2 := by
  induction k1 generalizing k2 with
  | nil =>
    cases k2 with
    | nil =>
      rw [List.nil_append, List.nil_append] at he
      exact ⟨rfl, (List.cons.inj he).2⟩
    | cons b k2' =>
      rw [List.nil_append, List.cons_append] at he
      exact absurd (List.cons.inj he).1.symm (h2 b (List.mem_cons_self _ _))
  | cons a k1' ih =>
    cases k2 with
    | nil =>
      rw [List.cons_append, List.nil_append] at he
      exact absurd (List.cons.inj he).1 (h1 a (List.mem_cons_self _ _))
    | cons b k2' =>
      rw [List.cons_append, List.cons_append] at he
      obtain ⟨hab, htail⟩ := List.cons.inj he
      obtain ⟨hk, hr⟩ := ih (fun c hc => h1 c (List.mem_cons_of_mem _ hc))
        (fun c hc => h2 c (List.mem_cons_of_mem _ hc)) htail
      exact ⟨by rw [hab, hk], hr⟩

theorem append_colon_inj_right {p1 p2 n1 n2 : List Char}
    (h1 : ∀ c ∈ n1, c ≠ ':') (h2 : ∀ c ∈ n2, c ≠ ':')
    (he : p1 ++ ':' :: n1 = p2 ++ ':' :: n2) : p1 = p2 ∧ n1 = n2 := by
  have hrev : n1.reverse ++ ':' :: p1.reverse = n2.reverse ++ ':' :: p2.reverse := by
    have h := congrArg List.reverse he
    rw [List.reverse_append, List.reverse_append, List.reverse_cons,
      List.reverse_cons, List.append_assoc, List.append_assoc,
      List.singleton_append, List.singleton_append] at h
    exact h
  obtain ⟨hn, hp⟩ := append_colon_inj
    (fun c hc => h1 c (List.mem_reverse.mp hc))
    (fun c hc => h2 c (List.mem_reverse.mp hc)) hrev
  exact ⟨List.reverse_injective hp, List.reverse_injective hn⟩

theorem fileId_data (p : String) :
    ("file:" ++ p).data = "file".data ++ ':' :: p.data := by
  rw [String.data_append]
  rfl

theorem authorId_data (n : String) :
    ("author:" ++ n).data = "author".data ++ ':' :: n.data := by
  rw [String.data_append]
  rfl

theorem idCat_data (ty p n : String) :
    (ty ++ ":" ++ p ++ ":" ++ n).data =
      ty.data ++ ':' :: (p.data ++ ':' :: n.data) := by
  rw [String.data_append, String.data_append, String.data_append,
    String.data_append, show (":" : String).data = [':'] from rfl]
  simp [List.append_assoc]

/-- A well-formed definition tag, as produced by `extractDefinitions`:
one of the four kinds, one colon, and a colon-free name. -/
def wfDef (d : String) : Bool :=
  match d.data.dropWhile (fun c => c ≠ ':') with
  | [] => false
  | _ :: tail =>
    decide (String.mk (d.data.takeWhile (fun c => c ≠ ':')) ∈
      (["function", "class", "interface", "type"] : List String)) &&
    tail.all (fun c => c != ':')

theorem dropWhile_head_false {p : Char → Bool} {l res : List Char} {c : Char}
    (h : l.dropWhile p = c :: res) : p c = false := by
  induction l with
  | nil => cases h
  | cons a l' ih =>
    rw [List.dropWhile_cons] at h
    by_cases hp : p a = true
    · rw [if_pos hp] at h
      exact ih h
    · rw [if_neg hp] at h
      rw [← (List.cons.inj h).1]
      exact Bool.not_eq_true _ |>.mp hp

theorem wfDef_parse {d : String} (h : wfDef d = true) :
    d.data = (defParts d).1.data ++ ':' :: (defParts d).2.data ∧
    (∀ c ∈ (defParts d).1.data, c ≠ ':') ∧
    (∀ c ∈ (defParts d).2.data, c ≠ ':') ∧
    (defParts d).1 ∈ (["function", "class", "interface", "type"] : List String) := by
  unfold wfDef at h
  cases hdrop : d.data.dropWhile (fun c => c ≠ ':') with
  | nil =>
    rw [hdrop] at h
    cases h
  | cons c0 tail =>
    rw [hdrop] at h
    rw [Bool.and_eq_true] at h
    have hc0 : c0 = ':' := by
      have := dropWhile_head_false hdrop
      simpa using this
    have hall : ∀ c ∈ tail, c ≠ ':' := by
      intro c hc
      have := List.all_eq_true.mp h.2 c hc
      simpa using this
    have htail : tail.takeWhile (fun c => c ≠ ':') = tail := by
      refine List.takeWhile_eq_self_iff.mpr ?_
      intro c hc
      simpa using hall c hc
    have hparts : defParts d =
        (String.mk (d.data.takeWhile (fun c => c ≠ ':')), String.mk tail) := by
      unfold defParts
      rw [hdrop]
      show (String.mk (d.data.takeWhile (fun c => c ≠ ':')),
        String.mk (tail.takeWhile (fun c => c ≠ ':'))) = _
      rw [htail]
    have hsplit := List.takeWhile_append_dropWhile (fun c => decide (c ≠ ':')) d.data
    rw [hdrop, hc0] at hsplit
    rw [hparts]
    refine ⟨hsplit.symm, ?_, hall, of_decide_eq_true h.1⟩
    intro c hc
    have := List.mem_takeWhile_imp hc
    simpa using this

theorem fileId_inj {p q : String} (h : ("file:" ++ p) = "file:" ++ q) : p = q := by
  have hd := congrArg String.data h
  rw [String.data_append, String.data_append] at hd
  exact String.ext (List.append_cancel_left hd)

theorem authorId_string_inj : Function.Injective (fun n : String => "author:" ++ n) := by
  intro a b h
  have hd := congrArg String.data h
  rw [String.data_append, String.data_append] at hd
  exact String.ext (List.append_cancel_left hd)

theorem fileId_ne_defId {p q d : String} (hwf : wfDef d = true) :
    ("file:" ++ p) ≠ defNodeId q d := by
  intro he
  obtain ⟨-, hk, -, hmem⟩ := wfDef_parse hwf
  have hdata := congrArg String.data he
  rw [fileId_data] at hdata
  unfold defNodeId at hdata
  rw [idCat_data] at hdata
  obtain ⟨hkind, -⟩ := append_colon_inj (by decide) hk hdata
  have hstr : ("file" : String) = (defParts d).1 := String.ext hkind
  rw [← hstr] at hmem
  exact absurd hmem (by decide)

theorem authorId_ne_fileId {n p : String} : ("author:" ++ n) ≠ "file:" ++ p := by
  intro he
  have hdata := congrArg String.data he
  rw [authorId_data, fileId_data] at hdata
  obtain ⟨hk, -⟩ := append_colon_inj (by decide) (by decide) hdata
  have hstr : ("author" : String) = "file" := String.ext hk
  exact absurd hstr (by decide)

theorem authorId_ne_defId {n q d : String} (hwf : wfDef d = true) :
    ("author:" ++ n) ≠ defNodeId q d := by
  intro he
  obtain ⟨-, hk, -, hmem⟩ := wfDef_parse hwf
  have hdata := congrArg String.data he
  rw [authorId_data] at hdata
  unfold defNodeId at hdata
  rw [idCat_data] at hdata
  obtain ⟨hkind, -⟩ := append_colon_inj (by decide) hk hdata
  have hstr : ("author" : String) = (defParts d).1 := String.ext hkind
  rw [← hstr] at hmem
  exact absurd hmem (by decide)

theorem defId_inj {p q d e : String} (hd : wfDef d = true) (he : wfDef e = true)
    (h : defNodeId p d = defNodeId q e) : p = q ∧ d = e := by
  obtain ⟨hd1, hdk, hdn, -⟩ := wfDef_parse hd
  obtain ⟨he1, hek, hen, -⟩ := wfDef_parse he
  have hdata := congrArg String.data h
  unfold defNodeId at hdata
  rw [idCat_data, idCat_data] at hdata
  obtain ⟨hkind, hrest⟩ := append_colon_inj hdk hek hdata
  obtain ⟨hpath, hname⟩ := append_colon_inj_right hdn hen hrest
  refine ⟨String.ext hpath, ?_⟩
  apply String.ext
  rw [hd1, he1, hkind, hname]

/-- The ids contributed by one file, in push order. -/
def idsOfFile (f : FileAnalysis) : List String :=
  (nodesOfFile f).map GraphNode.id

theorem idsOfFile_eq (f : FileAnalysis) :
    idsOfFile f = ("file:" ++ f.path) ::
      (f.metrics.definitions.take 5).map (defNodeId f.path) := by
  unfold idsOfFile nodesOfFile
  rw [List.map_cons, List.map_map]
  rfl

/-! ### Claim C4: node-id uniqueness -/

/-- Sample analyzed file used to instantiate graph claims. -/
def sampleFile (p : String) (defs : List String) : FileAnalysis :=
  { path := p
    language := "typescript"
    metrics :=
      { lines := 1
        complexity := 1
        maintainability := 100
        definitions := defs
        imports := [] }
    commits := []
    authors := []
    analysis := none
    lastModified := "unknown"
    createdAt := "unknown" }

/-- Sample author record used to instantiate graph claims. -/
def sampleAuthor : AuthorStats :=
  { name := "dev"
    email := none
    commits := 3
    filesChanged := 0
    additions := 0
    deletions := 0
    firstCommit := "2024-01-01"
    lastCommit := "2024-02-01" }

/-- Sample repository statistics with a single top author. -/
def sampleStats : RepositoryStats :=
  { totalFiles := 2
    analyzedFiles := 2
    totalCommits := 0
    totalAuthors := 1
    languages := []
    topAuthors := [sampleAuthor]
    dateRangeFirst := "2024-01-01"
    dateRangeLast := "2024-02-01" }

/-- C4 (counterexample): `buildKnowledgeGraph` performs no duplicate-id
check — every node is pushed unconditionally.  A file whose definition
list contains `function:foo` twice (as `extractDefinitions` produces for
a source declaring both `function foo` and `const foo = (`) yields two
nodes with the identical id `function:a.ts:foo`. -/
theorem C4_counterexample :
    ¬ (((buildKnowledgeGraph
        [sampleFile "a.ts" ["function:foo", "function:foo"]]
        sampleStats).nodes.map GraphNode.id).Nodup) := by
  decide

/-- C4 (amended): node ids are unique *provided* the verdict paths are
pairwise distinct, each verdict's first five definition tags are
distinct and well-formed (`kind:name` with one of the four kinds and a
colon-free name), and the top authors have pairwise distinct names; in
particular two files with identical basenames in different directories
always get two distinct file nodes.  Without these provisos a duplicate
id is re-added verbatim, since the construction never checks for an
existing id. -/
theorem C4_node_ids_nodup (files : List FileAnalysis) (stats : RepositoryStats)
    (hpaths : (files.map FileAnalysis.path).Nodup)
    (hdefs : ∀ f ∈ files, (f.metrics.definitions.take 5).Nodup ∧
      ∀ d ∈ f.metrics.definitions.take 5, wfDef d = true)
    (hauth : (stats.topAuthors.map AuthorStats.name).Nodup) :
    ((buildKnowledgeGraph files stats).nodes.map GraphNode.id).Nodup := by
  have hids : (buildKnowledgeGraph files stats).nodes.map GraphNode.id =
      files.flatMap idsOfFile ++
        (stats.topAuthors.take 5).map (fun a => "author:" ++ a.name) := by
    unfold buildKnowledgeGraph
    rw [List.map_append, List.map_flatMap, List.map_map]
    rfl
  rw [hids, List.nodup_append]
  refine ⟨?_, ?_, ?_⟩
  · rw [List.nodup_flatMap]
    constructor
    · intro f hf
      obtain ⟨hnd, hwf⟩ := hdefs f hf
      rw [idsOfFile_eq, List.nodup_cons]
      constructor
      · intro hmem
        obtain ⟨d, hdm, heq⟩ := List.mem_map.mp hmem
        exact fileId_ne_defId (hwf d hdm) heq.symm
      · refine List.Nodup.map_on ?_ hnd
        intro d hdm e hem hde
        exact (defId_inj (hwf d hdm) (hwf e hem) hde).2
    · have hp : files.Pairwise (fun a b => a.path ≠ b.path) :=
        List.pairwise_map.mp hpaths
      refine hp.imp_of_mem ?_
      intro f g hf hg hne id hidf hidg
      obtain ⟨-, hwff⟩ := hdefs f hf
      obtain ⟨-, hwfg⟩ := hdefs g hg
      rw [idsOfFile_eq] at hidf hidg
      rcases List.mem_cons.mp hidf with h1 | h1
      · rcases List.mem_cons.mp hidg with h2 | h2
        · exact hne (fileId_inj (h1.symm.trans h2))
        · obtain ⟨d, hdm, heq⟩ := List.mem_map.mp h2
          exact fileId_ne_defId (hwfg d hdm) (h1.symm.trans heq.symm)
      · obtain ⟨d, hdm, heq⟩ := List.mem_map.mp h1
        rcases List.mem_cons.mp hidg with h2 | h2
        · exact fileId_ne_defId (hwff d hdm) (h2.symm.trans heq.symm)
        · obtain ⟨e, hem, heq2⟩ := List.mem_map.mp h2
          exact hne (defId_inj (hwff d hdm) (hwfg e hem) (heq.trans heq2.symm)).1
  · have hnames : ((stats.topAuthors.take 5).map AuthorStats.name).Nodup := by
      rw [List.map_take]
      exact List.Nodup.sublist (List.take_sublist _ _) hauth
    have hcomp : (stats.topAuthors.take 5).map (fun a => "author:" ++ a.name) =
        ((stats.topAuthors.take 5).map AuthorStats.name).map
          (fun n => "author:" ++ n) := by
      rw [List.map_map]
      rfl
    rw [hcomp]
    exact (List.nodup_map_iff authorId_string_inj).mpr hnames
  · intro id h1 h2
    obtain ⟨f, hf, hidf⟩ := List.mem_flatMap.mp h1
    obtain ⟨a, ha, hida⟩ := List.mem_map.mp h2
    obtain ⟨-, hwff⟩ := hdefs f hf
    rw [idsOfFile_eq] at hidf
    rcases List.mem_cons.mp hidf with h3 | h3
    · exact authorId_ne_fileId (hida.trans h3)
    · obtain ⟨d, hdm, heq⟩ := List.mem_map.mp h3
      exact authorId_ne_defId (hwff d hdm) (hida.trans heq.symm)

/-- C4 (witness): two files with identical basenames in different
directories, each with distinct well-formed definitions, and one top
author — all node ids distinct. -/
theorem C4_witness :
    ((buildKnowledgeGraph
      [sampleFile "a/x.ts" ["function:foo", "class:Foo"],
       sampleFile "b/x.ts" ["function:foo"]] sampleStats).nodes.map
        GraphNode.id).Nodup :=
  C4_node_ids_nodup _ _ (by decide) (by decide) (by decide)

/-! ### Claim C5: every edge endpoint is a node id -/

theorem fileNode_mem (files : List FileAnalysis) (stats : RepositoryStats)
    {f : FileAnalysis} (hf : f ∈ files) :
    fileNode f ∈ (buildKnowledgeGraph files stats).nodes :=
  List.mem_append_left _
    (List.mem_flatMap.mpr ⟨f, hf, List.mem_cons_self _ _⟩)

theorem defNode_mem (files : List FileAnalysis) (stats : RepositoryStats)
    {f : FileAnalysis} (hf : f ∈ files) {d : String}
    (hd : d ∈ f.metrics.definitions.take 5) :
    defNode f d ∈ (buildKnowledgeGraph files stats).nodes :=
  List.mem_append_left _
    (List.mem_flatMap.mpr ⟨f, hf,
      List.mem_cons_of_mem _ (List.mem_map_of_mem _ hd)⟩)

theorem authorNode_mem (files : List FileAnalysis) (stats : RepositoryStats)
    {a : AuthorStats} (ha : a ∈ stats.topAuthors.take 5) :
    authorNode a ∈ (buildKnowledgeGraph files stats).nodes :=
  List.mem_append_right _ (List.mem_map_of_mem _ ha)

/-- C5: every edge emitted by `buildKnowledgeGraph` — `defines`,
`authored` and `imports` alike — has a source id and a target id that
are ids of nodes in the emitted node set, for every verdict list and
repository statistics. -/
theorem C5_edge_endpoints_are_nodes (files : List FileAnalysis)
    (stats : RepositoryStats) :
    ∀ e ∈ (buildKnowledgeGraph files stats).edges,
      (∃ n ∈ (buildKnowledgeGraph files stats).nodes, n.id = e.source) ∧
      (∃ n ∈ (buildKnowledgeGraph files stats).nodes, n.id = e.target) := by
  intro e he
  have hedges : (buildKnowledgeGraph files stats).edges =
      files.flatMap (fun f => (f.metrics.definitions.take 5).map (defEdge f))
        ++ (stats.topAuthors.take 5).flatMap (authorEdges files)
        ++ files.flatMap (importEdges files) := rfl
  rw [hedges] at he
  rcases List.mem_append.mp he with h | h
  · rcases List.mem_append.mp h with h1 | h1
    · obtain ⟨f, hf, h2⟩ := List.mem_flatMap.mp h1
      obtain ⟨d, hd, heq⟩ := List.mem_map.mp h2
      subst heq
      exact ⟨⟨fileNode f, fileNode_mem files stats hf, rfl⟩,
        ⟨defNode f d, defNode_mem files stats hf hd, rfl⟩⟩
    · obtain ⟨a, ha, h2⟩ := List.mem_flatMap.mp h1
      unfold authorEdges at h2
      obtain ⟨f, hf2, heq⟩ := List.mem_map.mp h2
      subst heq
      exact ⟨⟨authorNode a, authorNode_mem files stats ha, rfl⟩,
        ⟨fileNode f, fileNode_mem files stats (List.mem_of_mem_filter hf2), rfl⟩⟩
  · obtain ⟨f, hf, h2⟩ := List.mem_flatMap.mp h
    unfold importEdges at h2
    obtain ⟨imp, himp, hsome⟩ := List.mem_filterMap.mp h2
    cases hmatch : importMatch files imp with
    | none =>
      rw [hmatch] at hsome
      cases hsome
    | some g =>
      rw [hmatch] at hsome
      have hg : g ∈ files := List.mem_of_find?_eq_some hmatch
      cases hsome
      exact ⟨⟨fileNode f, fileNode_mem files stats hf, rfl⟩,
        ⟨fileNode g, fileNode_mem files stats hg, rfl⟩⟩

/-- C5 (witness): the theorem applied to a concrete two-file graph with
a `defines` edge picked from the emitted edge list. -/
theorem C5_witness :
    (∃ n ∈ (buildKnowledgeGraph
        [sampleFile "src/a.ts" ["function:foo"], sampleFile "src/utils.ts" []]
        sampleStats).nodes,
      n.id = (defEdge (sampleFile "src/a.ts" ["function:foo"]) "function:foo").source) ∧
    (∃ n ∈ (buildKnowledgeGraph
        [sampleFile "src/a.ts" ["function:foo"], sampleFile "src/utils.ts" []]
        sampleStats).nodes,
      n.id = (defEdge (sampleFile "src/a.ts" ["function:foo"]) "function:foo").target) :=
  C5_edge_endpoints_are_nodes _ sampleStats _ (by decide)

/-! ### Claim C6: clusters per directory -/

/-- C6: the cluster structure is as claimed — one cluster per directory
holding more than one analyzed file, none for single-file directories —
but the cluster that groups top-level files is named `"."`, not
`"root"`: Node's `dirname` returns `"."` (never the empty string) for a
top-level path, so the `dir || "root"` fallback in the source is dead
code.  Two top-level files therefore produce the single cluster
`{name := ".", nodeIds := [file:a.ts, file:b.ts]}`. -/
theorem C6_top_level_cluster_named_dot :
    ((buildKnowledgeGraph [sampleFile "a.ts" [], sampleFile "b.ts" []]
        sampleStats).clusters =
      [{ name := ".", nodeIds := ["file:a.ts", "file:b.ts"] }]) ∧
    dirname "a.ts" = "." ∧ ("." : String) ≠ "root" ∧
    ((buildKnowledgeGraph
        [sampleFile "src/a.ts" [], sampleFile "src/b.ts" [],
         sampleFile "lib/c.ts" []] sampleStats).clusters =
      [{ name := "src", nodeIds := ["file:src/a.ts", "file:src/b.ts"] }]) := by
  exact ⟨by decide, by decide, by decide, by decide⟩

/-! ### `analyzeFile` / `analyzeFiles`
(`src/orchestration/kestra-client.ts`, lines 711–801)

The file read, the git history fetch and the Gemini call are effects;
they are modelled by a per-file environment carrying their results
(`content` is `none` when `readFileSafe` failed, the `aiResult` is the
outcome of `gemini.analyzeCodeContext` — an `Except` whose `error` case
models a thrown exception, which the source catches and ignores).  The
lexical extractors for definitions and imports are passed in as
functions, so every theorem below holds for any extractor behaviour. -/

/-- The extension→language table of `getLanguage`
(`src/lib/utils.ts` lines 22–50). -/
def languageMap : List (String × String) :=
  [("ts", "typescript"), ("tsx", "typescript"), ("js", "javascript"),
   ("jsx", "javascript"), ("mjs", "javascript"), ("cjs", "javascript"),
   ("py", "python"), ("java", "java"), ("go", "go"), ("rs", "rust"),
   ("rb", "ruby"), ("php", "php"), ("c", "c"), ("cpp", "cpp"),
   ("cc", "cpp"), ("h", "c"), ("hpp", "cpp"), ("cs", "csharp"),
   ("swift", "swift"), ("kt", "kotlin"), ("scala", "scala"),
   ("vue", "vue"), ("svelte", "svelte")]

/-- `getExtension`: `path.extname(filePath).toLowerCase().slice(1)` —
the lower-cased text after the last `'.'` of the final path segment,
empty when the segment has no dot or only a leading dot. -/
def getExtension (filePath : String) : String :=
  let seg := (filePath.data.reverse.takeWhile (fun c => c ≠ '/')).reverse
  let er := seg.reverse.takeWhile (fun c => c ≠ '.')
  if er.length = seg.length then ""
  else if seg.length - 1 - er.length = 0 then ""
  else String.mk (er.reverse.map Char.toLower)

/-- `getLanguage`: table lookup, `"unknown"` for unmapped extensions. -/
def getLanguage (filePath : String) : String :=
  match languageMap.find? (fun kv => kv.1 == getExtension filePath) with
  | some kv => kv.2
  | none => "unknown"

/-- The definition/import extractors of `src/lib/utils.ts`, abstracted
as functions of the code text and language tag. -/
structure Extractors where
  extractDefinitions : String → String → List String
  extractImports : String → String → List String

/-- The excavation options (`ExcavationOptions` with the constructor's
defaults filled in). -/
structure ExcOptions where
  maxFiles : Nat
  maxCommitsPerFile : Nat
  interactive : Bool
  verbose : Bool
  skipAnalysis : Bool

/-- The per-file effect results consumed by `analyzeFile`. -/
structure FileEnv where
  path : String
  content : Option String
  commits : List CommitInfo
  aiResult : Except String ArchaeologicalAnalysis

/-- `[...new Set(xs)]`: deduplicate keeping first occurrences. -/
def dedupKeepFirst (l : List String) : List String :=
  l.foldl (fun acc a => if acc.contains a then acc else acc ++ [a]) []

/-- `commits[0]?.date || "unknown"`. -/
def headDateOr (commits : List CommitInfo) : String :=
  match commits.head? with
  | some c => if c.date = "" then "unknown" else c.date
  | none => "unknown"

/-- `commits[commits.length - 1]?.date || "unknown"`. -/
def lastDateOr (commits : List CommitInfo) : String :=
  match commits.getLast? with
  | some c => if c.date = "" then "unknown" else c.date
  | none => "unknown"

/-- `analyzeFile` (lines 747–801).  `if (!content) return null` fires
both when the read failed (`null`) and when the file is empty (`""` is
falsy).  The Gemini call happens only when analysis is enabled and at
least one commit exists; a thrown error is caught and leaves `analysis`
at `null`. -/
def analyzeReadFile (ex : Extractors) (opts : ExcOptions) (env : FileEnv)
    (content : String) : FileAnalysis :=
  let language := getLanguage env.path
  { path := env.path
    language := language
    metrics :=
      { lines := (linesList content).length
        complexity := calculateComplexity content
        maintainability := estimateMaintainability content
        definitions := ex.extractDefinitions content language
        imports := ex.extractImports content language }
    commits := env.commits
    authors := dedupKeepFirst (env.commits.map (fun c => c.author))
    analysis :=
      if !opts.skipAnalysis && env.commits.length > 0 then
        env.aiResult.toOption
      else none
    lastModified := headDateOr env.commits
    createdAt := lastDateOr env.commits }

def analyzeFile (ex : Extractors) (opts : ExcOptions) (env : FileEnv) :
    Option FileAnalysis :=
  match env.content with
  | none => none
  | some content =>
    if content = "" then none
    else some (analyzeReadFile ex opts env content)

/-- `analyzeFiles` (lines 711–745): process the files one by one,
pushing each non-null verdict; a per-file failure (the `try`/`catch`
around `analyzeFile` and the swallowed Gemini error inside it) never
stops the loop, and the rate-limit delay has no effect on the result. -/
def analyzeFiles (ex : Extractors) (opts : ExcOptions) (envs : List FileEnv) :
    List FileAnalysis :=
  envs.filterMap (analyzeFile ex opts)

/-! ### Claims C8, C9 -/

/-- C8: when the synthesis call for one file throws, `analyzeFile` still
returns a verdict for that readable, non-empty file with `analysis`
absent, and `analyzeFiles` over a list containing that file still
analyzes every other file — the failure is never fatal to the run. -/
theorem C8_synthesis_failure_not_fatal (ex : Extractors) (opts : ExcOptions)
    (env : FileEnv) (l1 l2 : List FileEnv) (c msg : String)
    (hcontent : env.content = some c) (hne : c ≠ "")
    (hai : env.aiResult = Except.error msg) :
    ∃ v, analyzeFile ex opts env = some v ∧ v.analysis = none ∧
      analyzeFiles ex opts (l1 ++ env :: l2) =
        analyzeFiles ex opts l1 ++ v :: analyzeFiles ex opts l2 := by
  have hv : ∃ v, analyzeFile ex opts env = some v ∧ v.analysis = none := by
    obtain ⟨p0, ct0, cm0, ai0⟩ := env
    simp only at hcontent hai
    subst hcontent
    subst hai
    show ∃ v, (if c = "" then none
        else some (analyzeReadFile ex opts ⟨p0, some c, cm0, Except.error msg⟩ c)) =
        some v ∧ v.analysis = none
    rw [if_neg hne]
    refine ⟨_, rfl, ?_⟩
    show (if !opts.skipAnalysis && cm0.length > 0 then
        (Except.error msg : Except String ArchaeologicalAnalysis).toOption
      else none) = none
    split
    · rfl
    · rfl
  obtain ⟨v, hv1, hv2⟩ := hv
  refine ⟨v, hv1, hv2, ?_⟩
  unfold analyzeFiles
  rw [List.filterMap_append, List.filterMap_cons, hv1]

/-- C8 (witness): a concrete file whose synthesis call errors is still
analyzed, and its neighbours in the list are unaffected. -/
theorem C8_witness :
    ∃ v, analyzeFile ⟨fun _ _ => [], fun _ _ => []⟩
        ⟨10, 5, false, false, false⟩
        ⟨"a.ts", some "let x = 1", [⟨"h1", "init", "dev", "2024-01-01", none⟩],
          Except.error "network error"⟩ = some v ∧
      v.analysis = none ∧
      analyzeFiles ⟨fun _ _ => [], fun _ _ => []⟩ ⟨10, 5, false, false, false⟩
          ([] ++ ⟨"a.ts", some "let x = 1",
            [⟨"h1", "init", "dev", "2024-01-01", none⟩],
            Except.error "network error"⟩ :: []) =
        analyzeFiles ⟨fun _ _ => [], fun _ _ => []⟩ ⟨10, 5, false, false, false⟩ []
          ++ v :: analyzeFiles ⟨fun _ _ => [], fun _ _ => []⟩
            ⟨10, 5, false, false, false⟩ [] :=
  C8_synthesis_failure_not_fatal _ _ _ [] [] "let x = 1" "network error"
    rfl (by decide) rfl

/-- C9: a readable file whose content is the empty string is silently
skipped — `!content` is true for `""` — so it produces no verdict and
simply disappears from the analyzed list. -/
theorem C9_empty_file_skipped (ex : Extractors) (opts : ExcOptions)
    (env : FileEnv) (l1 l2 : List FileEnv)
    (hcontent : env.content = some "") :
    analyzeFile ex opts env = none ∧
    analyzeFiles ex opts (l1 ++ env :: l2) =
      analyzeFiles ex opts l1 ++ analyzeFiles ex opts l2 := by
  have h0 : analyzeFile ex opts env = none := by
    obtain ⟨p0, ct0, cm0, ai0⟩ := env
    simp only at hcontent
    subst hcontent
    show (if ("" : String) = "" then none
        else some (analyzeReadFile ex opts ⟨p0, some "", cm0, ai0⟩ "")) = none
    rw [if_pos rfl]
  refine ⟨h0, ?_⟩
  unfold analyzeFiles
  rw [List.filterMap_append, List.filterMap_cons, h0]

/-- C9 (witness): a concrete zero-byte file in the middle of a run
yields no verdict. -/
theorem C9_witness :
    analyzeFile ⟨fun _ _ => [], fun _ _ => []⟩ ⟨10, 5, false, false, false⟩
        ⟨"empty.ts", some "", [], Except.error "unused"⟩ = none ∧
    analyzeFiles ⟨fun _ _ => [], fun _ _ => []⟩ ⟨10, 5, false, false, false⟩
        ([] ++ ⟨"empty.ts", some "", [], Except.error "unused"⟩ :: []) =
      analyzeFiles ⟨fun _ _ => [], fun _ _ => []⟩ ⟨10, 5, false, false, false⟩ []
        ++ analyzeFiles ⟨fun _ _ => [], fun _ _ => []⟩
          ⟨10, 5, false, false, false⟩ [] :=
  C9_empty_file_skipped _ _ _ [] [] rfl

/-! ### `generateInsights` (`src/orchestration/kestra-client.ts`,
lines 959–1053) and the report aliasing

`files.sort(...)` sorts the verdict array *in place* (V8's sort is
stable); the mutation is modelled by state passing: `generateInsights`
returns both the insights and the array value after the sort, and the
report's `files` field — the same array reference in the source — is
that returned value. -/

structure Insights where
  businessDomains : List String
  technicalDebt : List String
  riskAreas : List String
  keyDecisions : List String
  hotspots : List String
deriving DecidableEq

/-- JavaScript `String.prototype.toLowerCase`. -/
def lowerStr (s : String) : String := String.mk (s.data.map Char.toLower)

/-- `Set.add` on an insertion-ordered set. -/
def insertUniq (l : List String) (x : String) : List String :=
  if l.contains x then l else l ++ [x]

/-- `str.slice(0, n)`. -/
def sliceStr (s : String) (n : Nat) : String := String.mk (s.data.take n)

/-- The per-file accumulator of the first loop of `generateInsights`:
domains, debt and risks are insertion-ordered sets, key decisions a
plain list. -/
structure InsightAcc where
  businessDomains : List String
  technicalDebt : List String
  riskAreas : List String
  keyDecisions : List String

/-- One iteration of the first loop of `generateInsights`: skip files
without analysis; scan the lowercased business context for the five
domain keywords; collect risks longer than 10 characters; collect
recommendations mentioning refactoring/debt/cleanup/deprecation; record
a key decision for a non-empty rationale with confidence above 0.7. -/
def insightStep (acc : InsightAcc) (f : FileAnalysis) : InsightAcc :=
  match f.analysis with
  | none => acc
  | some an =>
    let ctx := lowerStr an.businessContext
    let bd0 := acc.businessDomains
    let bd1 := if substrB "auth".data ctx.data then insertUniq bd0 "authentication" else bd0
    let bd2 := if substrB "payment".data ctx.data then insertUniq bd1 "payments" else bd1
    let bd3 := if substrB "user".data ctx.data then insertUniq bd2 "user-management" else bd2
    let bd4 := if substrB "api".data ctx.data then insertUniq bd3 "api" else bd3
    let bd5 := if substrB "database".data ctx.data || substrB "data".data ctx.data
      then insertUniq bd4 "data-layer" else bd4
    let ra := an.risks.foldl
      (fun r risk => if risk ≠ "" ∧ 10 < risk.length then insertUniq r risk else r)
      acc.riskAreas
    let td := an.recommendations.foldl
      (fun t rec0 =>
        let lower := lowerStr rec0
        if substrB "refactor".data lower.data ||
            substrB "technical debt".data lower.data ||
            substrB "cleanup".data lower.data ||
            substrB "deprecated".data lower.data
        then insertUniq t rec0 else t)
      acc.technicalDebt
    let kd := if an.technicalRationale ≠ "" ∧ (7 : ℚ)/10 < an.confidenceScore
      then acc.keyDecisions ++
        [basename f.path ++ ": " ++ sliceStr an.technicalRationale 100]
      else acc.keyDecisions
    { businessDomains := bd5, technicalDebt := td, riskAreas := ra,
      keyDecisions := kd }

/-- The in-place `files.sort((a, b) => b.commits.length -
a.commits.length)`: stable, descending by commit-slice length. -/
def sortByCommitsDesc (files : List FileAnalysis) : List FileAnalysis :=
  files.mergeSort (fun a b => decide (b.commits.length ≤ a.commits.length))

/-- `generateInsights`, returning the insights together with the value
of the verdict array after the in-place sort. -/
def generateInsights (files : List FileAnalysis) (stats : RepositoryStats) :
    Insights × List FileAnalysis :=
  let acc := files.foldl insightStep ⟨[], [], [], []⟩
  let sorted := sortByCommitsDesc files
  let hotspots := (sorted.take 5).map
    (fun f => f.path ++ " (" ++ toString f.commits.length ++ " commits)")
  let complexFiles := ((sorted.filter (fun f => 20 < f.metrics.complexity)).mergeSort
    (fun a b => decide (b.metrics.complexity ≤ a.metrics.complexity))).take 3
  let td2 := complexFiles.foldl
    (fun t f => insertUniq t ("High complexity in " ++ f.path ++
      " (complexity: " ++ toString f.metrics.complexity ++ ")"))
    acc.technicalDebt
  let lowM := (sorted.filter (fun f => f.metrics.maintainability < 50)).take 3
  let ra2 := lowM.foldl
    (fun r f => insertUniq r ("Low maintainability in " ++ f.path ++
      " (score: " ++ toString f.metrics.maintainability ++ ")"))
    acc.riskAreas
  (⟨acc.businessDomains, td2.take 10, ra2.take 10, acc.keyDecisions.take 5,
    hotspots⟩, sorted)

/-- The `files` field of the final report assembled by `excavate`: the
same array object that `generateInsights` sorted in place. -/
def excavateReportFiles (analyzed : List FileAnalysis)
    (stats : RepositoryStats) : List FileAnalysis :=
  (generateInsights analyzed stats).2

/-! ### Claim C10 -/

/-- C10: the report's `files` list is the verdict array as sorted in
place by `generateInsights` — a permutation of the analyzed files in
descending commit-count (hotspot) order, with the hotspot strings drawn
from the head of the very same ordering — rather than the discovery
order. -/
theorem C10_report_files_in_hotspot_order (analyzed : List FileAnalysis)
    (stats : RepositoryStats) :
    excavateReportFiles analyzed stats = sortByCommitsDesc analyzed ∧
    (excavateReportFiles analyzed stats).Perm analyzed ∧
    (excavateReportFiles analyzed stats).Pairwise
      (fun a b => b.commits.length ≤ a.commits.length) ∧
    (generateInsights analyzed stats).1.hotspots =
      ((excavateReportFiles analyzed stats).take 5).map
        (fun f => f.path ++ " (" ++ toString f.commits.length ++ " commits)") := by
  refine ⟨rfl, ?_, ?_, rfl⟩
  · exact List.mergeSort_perm analyzed _
  · have h := @List.sorted_mergeSort FileAnalysis
      (fun a b : FileAnalysis => decide (b.commits.length ≤ a.commits.length))
      (fun a b c hab hbc => by
        simp only [decide_eq_true_eq] at hab hbc ⊢
        omega)
      (fun a b => by
        simp only [Bool.or_eq_true, decide_eq_true_eq]
        omega)
      analyzed
    exact h.imp (fun hab => by simpa using hab)
